import Mathlib

/-!
Shallow embedding of `src/frameworks/foundation/ns_locale.rs` from touchHLE:
the `get_preferred_languages` resolver (operator override, SDL host locale
enumeration, `"en"` fallback) and the cached `+[NSLocale preferredLanguages]`
accessor, together with theorems about their behaviour.
-/

namespace NSLocale

/-- One `SDL_Locale` entry as observed by the resolver.  `language` models the
`language` C-string pointer: `none` is a null pointer, `some none` is a
non-null pointer to bytes that are not valid UTF-8 (so `CStr::to_str()` fails
and the `.unwrap()` panics), and `some (some s)` is a pointer to bytes that
decode to `s`.  `country` is only ever tested for nullness, so its payload is
irrelevant; it is kept as an `Option String`. -/
structure SDL_Locale where
  language : Option (Option String)
  country : Option String
deriving DecidableEq

/-- The slice of `crate::options::Options` that `get_preferred_languages`
reads: the `--preferred-languages=` override. -/
structure Options where
  preferred_languages : Option (List String)
deriving DecidableEq

/-- Observable outcome of one run of `get_preferred_languages`: the produced
list (`none` when the `.unwrap()` on undecodable host text panics), whether
`SDL_GetPreferredLocales` was called, and how many `SDL_free` calls ran. -/
structure ResolveTrace where
  result : Option (List String)
  hostInvoked : Bool
  freeCount : Nat
deriving DecidableEq

/-- The `for i in 0..` enumeration loop over the host buffer.  Walks entries
in order; at the first entry whose `language` and `country` pointers are both
null it breaks (the terminator), returning the languages collected so far.
A non-terminator entry whose language bytes are undecodable makes the
`.unwrap()` panic, modelled as `none`.  (A non-terminator entry with a null
`language` pointer would make `CStr::from_ptr` read a null pointer in the
Rust; it is outside the defined domain and also mapped to `none`; theorems
about such entries carry a well-formedness hypothesis excluding them.) -/
def decodeLocales : List SDL_Locale → Option (List String)
  | [] => some []
  | loc :: rest =>
    if loc.language = none ∧ loc.country = none then
      some []
    else
      match loc.language with
      | none => none
      | some none => none
      | some (some s) => (decodeLocales rest).map (fun tail => s :: tail)

/-- The `unsafe` block of `get_preferred_languages`: call
`SDL_GetPreferredLocales` (a `none` buffer models a null return), enumerate,
and `SDL_free` the buffer.  Returns the collected languages paired with the
number of `SDL_free` calls that ran: the free sits after the loop inside the
non-null branch, so it runs once on normal loop exit, and not at all for a
null buffer or when the loop panics (panic unwinds past the free). -/
def hostEnumerate : Option (List SDL_Locale) → Option (List String) × Nat
  | none => (some [], 0)
  | some locs =>
    match decodeLocales locs with
    | none => (none, 0)
    | some langs => (some langs, 1)

/-- `get_preferred_languages` from `ns_locale.rs`: if the
`--preferred-languages=` override is present it is returned as-is; otherwise
the host locales are enumerated, and an empty enumeration is replaced by
`["en"]`. -/
def get_preferred_languages (options : Options)
    (host : Option (List SDL_Locale)) : ResolveTrace :=
  match options.preferred_languages with
  | some pl => ⟨some pl, false, 0⟩
  | none =>
    match hostEnumerate host with
    | (none, frees) => ⟨none, true, frees⟩
    | (some langs, frees) =>
      if langs = [] then ⟨some ["en"], true, frees⟩
      else ⟨some langs, true, frees⟩

/-- A guest object: an `NSString` (`ns_string::from_rust_string`) or an
`NSArray` of object ids (`ns_array::from_vec`). -/
inductive HeapVal where
  | str : String → HeapVal
  | arr : List Nat → HeapVal
deriving DecidableEq

/-- Look an object id up in a guest heap (newest entry first). -/
def heapFind : List (Nat × HeapVal) → Nat → Option HeapVal
  | [], _ => none
  | p :: rest, i => if p.1 = i then some p.2 else heapFind rest i

/-- The slice of the touchHLE `Environment` that `+preferredLanguages`
touches: the options, the host locale source, the
`State.preferred_languages` cache slot, and a guest object heap with its
allocation counter (object identity = id). -/
structure Env where
  options : Options
  host : Option (List SDL_Locale)
  preferred_languages : Option Nat
  heap : List (Nat × HeapVal)
  nextId : Nat
deriving DecidableEq

/-- Dereference an object id in an environment's guest heap. -/
def Env.lookup (env : Env) (i : Nat) : Option HeapVal :=
  heapFind env.heap i

/-- Allocate a fresh guest object, returning its id and the grown
environment. -/
def alloc (env : Env) (v : HeapVal) : Nat × Env :=
  (env.nextId,
    ⟨env.options, env.host, env.preferred_languages,
      (env.nextId, v) :: env.heap, env.nextId + 1⟩)

/-- `langs.into_iter().map(|lang| ns_string::from_rust_string(env, lang))`:
allocate one `NSString` per tag, in order, threading the environment. -/
def allocStrings : Env → List String → List Nat × Env
  | env, [] => ([], env)
  | env, s :: rest =>
    let p := alloc env (HeapVal.str s)
    let q := allocStrings p.2 rest
    (p.1 :: q.1, q.2)

/-- `+[NSLocale preferredLanguages]`: return the cached array if the slot is
set; otherwise resolve, wrap each tag as an `NSString`, wrap those in an
`NSArray`, store its id in the slot and return it.  The outer `none` models
the resolver panicking. -/
def preferredLanguages (env : Env) : Option (Nat × Env) :=
  match env.preferred_languages with
  | some existing => some (existing, env)
  | none =>
    match (get_preferred_languages env.options env.host).result with
    | none => none
    | some langs =>
      let p := allocStrings env langs
      let q := alloc p.2 (HeapVal.arr p.1)
      some (q.1, ⟨q.2.options, q.2.host, some q.1, q.2.heap, q.2.nextId⟩)

/-- A fresh per-session environment: empty heap, unresolved cache slot. -/
def mkEnv (options : Options) (host : Option (List SDL_Locale)) : Env :=
  ⟨options, host, none, [], 0⟩

/-- The terminator test of the loop: both pointers null. -/
def isSentinel (loc : SDL_Locale) : Bool :=
  loc.language.isNone && loc.country.isNone

/-- The host entries before the first terminator. -/
def preSentinel (locs : List SDL_Locale) : List SDL_Locale :=
  locs.takeWhile (fun l => !isSentinel l)

/-- The decoded language components of the pre-terminator entries, in
enumeration order. -/
def langComponents (locs : List SDL_Locale) : List String :=
  (preSentinel locs).filterMap (fun l => l.language.bind id)

/-! ## Helper lemmas about the enumeration loop -/

theorem isSentinel_eq_true (l : SDL_Locale) :
    isSentinel l = true ↔ l.language = none ∧ l.country = none := by
  simp [isSentinel, Option.isNone_iff_eq_none]

theorem preSentinel_nil : preSentinel [] = [] := rfl

theorem preSentinel_cons (l : SDL_Locale) (locs : List SDL_Locale) :
    preSentinel (l :: locs) =
      if isSentinel l then [] else l :: preSentinel locs := by
  cases h : isSentinel l <;> simp [preSentinel, List.takeWhile, h]

theorem langComponents_nil : langComponents [] = [] := by
  simp [langComponents, preSentinel]

theorem langComponents_cons (l : SDL_Locale) (locs : List SDL_Locale) :
    langComponents (l :: locs) =
      if isSentinel l then []
      else (l.language.bind id).toList ++ langComponents locs := by
  unfold langComponents
  rw [preSentinel_cons]
  cases h : isSentinel l
  · rcases hb : l.language with _ | ls
    · simp [List.filterMap_cons, hb]
    · rcases ls with _ | s <;> simp [List.filterMap_cons, hb]
  · simp

/-- Whenever the loop completes without panicking, what it collected is
exactly the decoded language components of the pre-terminator entries, in
order. -/
theorem decodeLocales_result_eq :
    ∀ (locs : List SDL_Locale) (xs : List String),
      decodeLocales locs = some xs → xs = langComponents locs := by
  intro locs
  induction locs with
  | nil =>
    intro xs hx
    simp [decodeLocales] at hx
    simp [hx, langComponents_nil]
  | cons l rest ih =>
    intro xs hx
    rw [decodeLocales] at hx
    by_cases hs : l.language = none ∧ l.country = none
    · rw [if_pos hs] at hx
      have : xs = [] := by simpa using hx.symm
      rw [langComponents_cons, if_pos ((isSentinel_eq_true l).mpr hs)]
      exact this
    · rw [if_neg hs] at hx
      have hsent : isSentinel l = false := by
        cases h : isSentinel l
        · rfl
        · exact absurd ((isSentinel_eq_true l).mp h) hs
      match hl : l.language with
      | none => rw [hl] at hx; exact absurd hx (by simp)
      | some none => rw [hl] at hx; exact absurd hx (by simp)
      | some (some s) =>
        rw [hl] at hx
        match hr : decodeLocales rest with
        | none => rw [hr] at hx; exact absurd hx (by simp)
        | some tail =>
          rw [hr] at hx
          have hxs : xs = s :: tail := by simpa using hx.symm
          rw [langComponents_cons, if_neg (by simp [hsent]), hl]
          simp [hxs, ih tail hr]

/-- When every pre-terminator entry decodes, the loop completes and collects
exactly the language components. -/
theorem decodeLocales_all_decodable :
    ∀ locs : List SDL_Locale,
      (∀ l ∈ preSentinel locs, (l.language.bind id).isSome = true) →
      decodeLocales locs = some (langComponents locs) := by
  intro locs
  induction locs with
  | nil => intro _; simp [decodeLocales, langComponents_nil]
  | cons l rest ih =>
    intro hdec
    rw [decodeLocales, langComponents_cons]
    by_cases hs : l.language = none ∧ l.country = none
    · rw [if_pos hs, if_pos ((isSentinel_eq_true l).mpr hs)]
    · have hsent : isSentinel l = false := by
        cases h : isSentinel l
        · rfl
        · exact absurd ((isSentinel_eq_true l).mp h) hs
      rw [if_neg hs, if_neg (by simp [hsent])]
      have hmem : l ∈ preSentinel (l :: rest) := by
        rw [preSentinel_cons, if_neg (by simp [hsent])]
        exact List.mem_cons_self l _
      have hl := hdec l hmem
      match hlang : l.language with
      | none => rw [hlang] at hl; simp at hl
      | some none => rw [hlang] at hl; simp at hl
      | some (some s) =>
        have hrest : ∀ x ∈ preSentinel rest, (x.language.bind id).isSome = true := by
          intro x hx
          apply hdec
          rw [preSentinel_cons, if_neg (by simp [hsent])]
          exact List.mem_cons_of_mem l hx
        simp [ih hrest]

/-- Under well-formed pointers (no null language before the terminator), the
loop panics exactly when some pre-terminator entry has undecodable language
bytes. -/
theorem decodeLocales_eq_none_iff :
    ∀ locs : List SDL_Locale,
      (∀ l ∈ preSentinel locs, l.language ≠ none) →
      (decodeLocales locs = none ↔
        ∃ l ∈ preSentinel locs, l.language = some none) := by
  intro locs
  induction locs with
  | nil => intro _; simp [decodeLocales, preSentinel_nil]
  | cons l rest ih =>
    intro hwf
    rw [decodeLocales]
    by_cases hs : l.language = none ∧ l.country = none
    · rw [if_pos hs]
      have : isSentinel l = true := (isSentinel_eq_true l).mpr hs
      simp [preSentinel_cons, this]
    · have hsent : isSentinel l = false := by
        cases h : isSentinel l
        · rfl
        · exact absurd ((isSentinel_eq_true l).mp h) hs
      have hpre : preSentinel (l :: rest) = l :: preSentinel rest := by
        rw [preSentinel_cons, if_neg (by simp [hsent])]
      rw [if_neg hs]
      have hlnn : l.language ≠ none := by
        apply hwf; rw [hpre]; exact List.mem_cons_self l _
      rcases hlang : l.language with _ | ls
      · exact absurd hlang hlnn
      rcases ls with _ | s
      · simp only [hlang, hpre]
        constructor
        · intro _
          exact ⟨l, List.mem_cons_self l _, hlang⟩
        · intro _
          trivial
      · have hwfrest : ∀ x ∈ preSentinel rest, x.language ≠ none := by
          intro x hx; apply hwf; rw [hpre]; exact List.mem_cons_of_mem l hx
        simp only [hlang, hpre]
        constructor
        · intro hn
          rcases hr : decodeLocales rest with _ | tail
          · obtain ⟨x, hxmem, hxlang⟩ := (ih hwfrest).mp hr
            exact ⟨x, List.mem_cons_of_mem l hxmem, hxlang⟩
          · rw [hr] at hn; simp at hn
        · intro ⟨x, hxmem, hxlang⟩
          rcases List.mem_cons.mp hxmem with hxl | hxrest
          · subst hxl
            rw [hlang] at hxlang
            simp at hxlang
          · have hr : decodeLocales rest = none :=
              (ih hwfrest).mpr ⟨x, hxrest, hxlang⟩
            simp [hr]

/-- Entries after a terminator never influence the enumeration: with no
terminator among `pre` and `s` a terminator, anything after `s` is ignored. -/
theorem decodeLocales_ignores_after_sentinel (s : SDL_Locale)
    (hs : isSentinel s = true) :
    ∀ pre post : List SDL_Locale, (∀ l ∈ pre, isSentinel l = false) →
      decodeLocales (pre ++ s :: post) = decodeLocales (pre ++ [s]) := by
  have hsent := (isSentinel_eq_true s).mp hs
  intro pre
  induction pre with
  | nil =>
    intro post _
    rw [List.nil_append, List.nil_append, decodeLocales, decodeLocales,
      if_pos ⟨hsent.1, hsent.2⟩, if_pos ⟨hsent.1, hsent.2⟩]
  | cons l rest ih =>
    intro post hpre
    have hl : isSentinel l = false := hpre l (List.mem_cons_self l _)
    have hnot : ¬(l.language = none ∧ l.country = none) := fun hc => by
      rw [(isSentinel_eq_true l).mpr hc] at hl
      simp at hl
    rw [List.cons_append, List.cons_append, decodeLocales, decodeLocales,
      if_neg hnot, if_neg hnot]
    rcases hlang : l.language with _ | ls
    · simp [hlang]
    rcases ls with _ | s
    · simp [hlang]
    · simp [hlang, ih post (fun x hx => hpre x (List.mem_cons_of_mem l hx))]

/-! ## Claim theorems about the resolver -/

/-- C1: when the `--preferred-languages=` override is configured, resolution
returns exactly that list verbatim (even an empty one) with the host locale
source never invoked and no host buffer touched. -/
theorem c1_override_verbatim (options : Options)
    (host : Option (List SDL_Locale)) (pl : List String)
    (h : options.preferred_languages = some pl) :
    get_preferred_languages options host = ⟨some pl, false, 0⟩ := by
  unfold get_preferred_languages
  rw [h]

theorem c1_override_verbatim_witness :
    get_preferred_languages ⟨some ["fr", "de"]⟩
        (some [⟨some (some "ja"), some "JP"⟩, ⟨none, none⟩]) =
      ⟨some ["fr", "de"], false, 0⟩ ∧
    get_preferred_languages ⟨some []⟩ none = ⟨some [], false, 0⟩ :=
  ⟨c1_override_verbatim ⟨some ["fr", "de"]⟩
      (some [⟨some (some "ja"), some "JP"⟩, ⟨none, none⟩]) ["fr", "de"] rfl,
    c1_override_verbatim ⟨some []⟩ none [] rfl⟩

/-- C3: with no override, whenever the host yields no usable entries (null
buffer, zero entries, or an immediate terminator) resolution returns exactly
`["en"]`, and no error reaches the guest. -/
theorem c3_fallback_en (options : Options) (host : Option (List SDL_Locale))
    (hov : options.preferred_languages = none)
    (hempty : host = none ∨ host = some [] ∨
      ∃ l rest, host = some (l :: rest) ∧ isSentinel l = true) :
    (get_preferred_languages options host).result = some ["en"] ∧
    (get_preferred_languages options host).result ≠ none := by
  rcases hempty with h | h | ⟨l, rest, h, hsent⟩ <;> subst h
  · constructor <;> simp [get_preferred_languages, hov, hostEnumerate]
  · constructor <;>
      simp [get_preferred_languages, hov, hostEnumerate, decodeLocales]
  · have hsc := (isSentinel_eq_true l).mp hsent
    have hd : decodeLocales (l :: rest) = some [] := by
      rw [decodeLocales, if_pos ⟨hsc.1, hsc.2⟩]
    constructor <;> simp [get_preferred_languages, hov, hostEnumerate, hd]

theorem c3_fallback_en_witness :
    (get_preferred_languages ⟨none⟩ none).result = some ["en"] ∧
    (get_preferred_languages ⟨none⟩ (some [])).result = some ["en"] ∧
    (get_preferred_languages ⟨none⟩
        (some [⟨none, none⟩, ⟨some (some "de"), some "DE"⟩])).result =
      some ["en"] :=
  ⟨(c3_fallback_en ⟨none⟩ none rfl (Or.inl rfl)).1,
    (c3_fallback_en ⟨none⟩ (some []) rfl (Or.inr (Or.inl rfl))).1,
    (c3_fallback_en ⟨none⟩ (some [⟨none, none⟩, ⟨some (some "de"), some "DE"⟩])
      rfl (Or.inr (Or.inr ⟨⟨none, none⟩, [⟨some (some "de"), some "DE"⟩],
        rfl, rfl⟩))).1⟩

/-- C4: enumeration stops at the first all-null terminator: every entry after
it is ignored, and in particular the host sequence
`[("en","US"), ("fr","FR"), terminator, ("de","DE")]` yields `["en","fr"]`. -/
theorem c4_sentinel_termination (pre post : List SDL_Locale) (s : SDL_Locale)
    (hpre : ∀ l ∈ pre, isSentinel l = false) (hs : isSentinel s = true) :
    decodeLocales (pre ++ s :: post) = decodeLocales (pre ++ [s]) ∧
    decodeLocales [⟨some (some "en"), some "US"⟩, ⟨some (some "fr"), some "FR"⟩,
      ⟨none, none⟩, ⟨some (some "de"), some "DE"⟩] = some ["en", "fr"] :=
  ⟨decodeLocales_ignores_after_sentinel s hs pre post hpre, by decide⟩

theorem c4_sentinel_termination_witness :
    decodeLocales [⟨some (some "en"), some "US"⟩, ⟨some (some "fr"), some "FR"⟩,
        ⟨none, none⟩, ⟨some (some "de"), some "DE"⟩] =
      decodeLocales [⟨some (some "en"), some "US"⟩,
        ⟨some (some "fr"), some "FR"⟩, ⟨none, none⟩] ∧
    decodeLocales [⟨some (some "en"), some "US"⟩, ⟨some (some "fr"), some "FR"⟩,
        ⟨none, none⟩, ⟨some (some "de"), some "DE"⟩] = some ["en", "fr"] :=
  c4_sentinel_termination
    [⟨some (some "en"), some "US"⟩, ⟨some (some "fr"), some "FR"⟩]
    [⟨some (some "de"), some "DE"⟩] ⟨none, none⟩ (by decide) (by decide)

/-- C5: a pre-terminator entry with a decodable language contributes exactly
its language, whatever its region is; and any completed enumeration is
exactly the decoded language components, so regions never reach the output. -/
theorem c5_region_stripping (lang : String) (c : Option String)
    (rest : List SDL_Locale) :
    decodeLocales (⟨some (some lang), c⟩ :: rest) =
      (decodeLocales rest).map (fun tail => lang :: tail) ∧
    ∀ (locs : List SDL_Locale) (xs : List String),
      decodeLocales locs = some xs → xs = langComponents locs := by
  constructor
  · simp [decodeLocales]
  · exact decodeLocales_result_eq

theorem c5_region_stripping_witness :
    decodeLocales [⟨some (some "en"), some "US"⟩, ⟨none, none⟩] =
      some ["en"] ∧
    ["en"] = langComponents [⟨some (some "en"), some "US"⟩, ⟨none, none⟩] := by
  have h := c5_region_stripping "en" (some "US") ([⟨none, none⟩])
  refine ⟨by rw [h.1]; rfl, ?_⟩
  exact h.2 [⟨some (some "en"), some "US"⟩, ⟨none, none⟩] ["en"]
    (by rw [h.1]; rfl)

/-- C9: an entry with a present (decodable) language and a null region is not
a terminator: it contributes its language and enumeration continues into the
remaining entries. -/
theorem c9_partial_entry_not_terminator (s : String)
    (rest : List SDL_Locale) :
    isSentinel ⟨some (some s), none⟩ = false ∧
    decodeLocales (⟨some (some s), none⟩ :: rest) =
      (decodeLocales rest).map (fun tail => s :: tail) := by
  constructor
  · rfl
  · simp [decodeLocales]

/-- C6 counterexample: the configuration with an empty override is accepted
by the code and resolves to the empty list, so the resolved list is not
non-empty for every configuration. -/
theorem c6_counterexample :
    ¬ ∀ (options : Options) (host : Option (List SDL_Locale))
        (xs : List String),
        (get_preferred_languages options host).result = some xs →
        1 ≤ xs.length := by
  intro hall
  have h := hall ⟨some []⟩ none [] rfl
  simp at h

/-- C6 (amended): unless the override is configured as the empty list, every
resolved preferred-language list has at least one entry. -/
theorem c6_nonempty (options : Options) (host : Option (List SDL_Locale))
    (xs : List String)
    (hov : options.preferred_languages ≠ some ([] : List String))
    (hres : (get_preferred_languages options host).result = some xs) :
    1 ≤ xs.length := by
  unfold get_preferred_languages at hres
  rcases ho : options.preferred_languages with _ | pl
  · rw [ho] at hres
    rcases he : hostEnumerate host with ⟨r, frees⟩
    rw [he] at hres
    rcases r with _ | langs
    · simp at hres
    · by_cases hl : langs = []
      · rw [hl] at hres
        simp at hres
        simp [← hres]
      · simp [hl] at hres
        exact hres ▸ List.length_pos.mpr hl
  · rw [ho] at hres
    simp at hres
    rw [← hres]
    apply List.length_pos.mpr
    intro hnil
    exact hov (by rw [ho, hnil])

theorem c6_nonempty_witness :
    (get_preferred_languages ⟨none⟩ none).result = some ["en"] ∧
    1 ≤ (["en"] : List String).length :=
  ⟨rfl, c6_nonempty ⟨none⟩ none ["en"] (by simp) rfl⟩

/-- C7 counterexample: when the host returns a null buffer on the no-override
path, no release runs at all (the free sits inside the non-null branch), so
the buffer is not released exactly once in that case. -/
theorem c7_counterexample :
    (get_preferred_languages ⟨none⟩ none).freeCount = 0 ∧
    (get_preferred_languages ⟨none⟩ none).freeCount ≠ 1 := by
  decide

/-- C7 (amended): on the no-override path the host buffer is freed exactly
once whenever a buffer was acquired and enumeration completes (terminator
reached, including zero entries); on a null buffer there is nothing to free
and no release runs; and no run of the resolver ever frees more than once. -/
theorem c7_free_exactly_once (options : Options)
    (hov : options.preferred_languages = none) :
    (∀ locs : List SDL_Locale, (decodeLocales locs).isSome = true →
      (get_preferred_languages options (some locs)).freeCount = 1) ∧
    (get_preferred_languages options none).freeCount = 0 ∧
    (∀ (o : Options) (host : Option (List SDL_Locale)),
      (get_preferred_languages o host).freeCount ≤ 1) := by
  refine ⟨?_, ?_, ?_⟩
  · intro locs hd
    rcases hl : decodeLocales locs with _ | langs
    · rw [hl] at hd; simp at hd
    · by_cases he : langs = [] <;>
        simp [get_preferred_languages, hov, hostEnumerate, hl, he]
  · simp [get_preferred_languages, hov, hostEnumerate]
  · intro o host
    unfold get_preferred_languages
    rcases o.preferred_languages with _ | pl
    · rcases host with _ | locs
      · simp [hostEnumerate]
      · rcases hl : decodeLocales locs with _ | langs
        · simp [hostEnumerate, hl]
        · by_cases he : langs = [] <;> simp [hostEnumerate, hl, he]
    · simp

theorem c7_free_exactly_once_witness :
    (get_preferred_languages ⟨none⟩ (some [⟨none, none⟩])).freeCount = 1 ∧
    (get_preferred_languages ⟨none⟩
        (some [⟨some (some "ja"), some "JP"⟩, ⟨none, none⟩])).freeCount = 1 ∧
    (get_preferred_languages ⟨none⟩ none).freeCount = 0 := by
  have h := c7_free_exactly_once ⟨none⟩ rfl
  exact ⟨h.1 [⟨none, none⟩] (by decide),
    h.1 [⟨some (some "ja"), some "JP"⟩, ⟨none, none⟩] (by decide), h.2.1⟩

/-- C8: with no override and well-formed pointers (no null language before
the terminator), resolution panics exactly when some pre-terminator entry has
undecodable language bytes; a null buffer never fails, and the override path
never fails. -/
theorem c8_undecodable_aborts (options : Options) (locs : List SDL_Locale)
    (hov : options.preferred_languages = none)
    (hwf : ∀ l ∈ preSentinel locs, l.language ≠ none) :
    ((get_preferred_languages options (some locs)).result = none ↔
      ∃ l ∈ preSentinel locs, l.language = some none) ∧
    (get_preferred_languages options none).result ≠ none ∧
    (∀ (o : Options) (pl : List String) (host : Option (List SDL_Locale)),
      o.preferred_languages = some pl →
      (get_preferred_languages o host).result ≠ none) := by
  refine ⟨?_, ?_, ?_⟩
  · rw [← decodeLocales_eq_none_iff locs hwf]
    rcases hl : decodeLocales locs with _ | langs
    · simp [get_preferred_languages, hov, hostEnumerate, hl]
    · by_cases he : langs = [] <;>
        simp [get_preferred_languages, hov, hostEnumerate, hl, he]
  · simp [get_preferred_languages, hov, hostEnumerate]
  · intro o pl host ho
    simp [get_preferred_languages, ho]

theorem c8_undecodable_aborts_witness :
    (get_preferred_languages ⟨none⟩
        (some [⟨some none, some "XX"⟩])).result = none ∧
    (get_preferred_languages ⟨none⟩ none).result ≠ none := by
  have h := c8_undecodable_aborts ⟨none⟩ [⟨some none, some "XX"⟩] rfl
    (by decide)
  exact ⟨h.1.mpr ⟨⟨some none, some "XX"⟩, by decide, rfl⟩, h.2.1⟩

/-! ## Helper lemmas about the guest heap and the cached accessor -/

theorem heapFind_cons (n : Nat) (v : HeapVal) (h : List (Nat × HeapVal))
    (i : Nat) :
    heapFind ((n, v) :: h) i = if n = i then some v else heapFind h i := rfl

/-- With the cache slot set, the accessor returns the slot unchanged. -/
theorem preferredLanguages_of_slot (env : Env) (i : Nat)
    (h : env.preferred_languages = some i) :
    preferredLanguages env = some (i, env) := by
  unfold preferredLanguages
  rw [h]

/-- `allocStrings` allocates one fresh string object per tag, in order:
it leaves the options, host and cache slot alone, keeps ids below the
allocation counter, preserves old lookups, and makes the returned ids
dereference to exactly the given strings. -/
theorem allocStrings_ok (langs : List String) :
    ∀ env : Env, (∀ p ∈ env.heap, p.1 < env.nextId) →
      (allocStrings env langs).2.options = env.options ∧
      (allocStrings env langs).2.host = env.host ∧
      (allocStrings env langs).2.preferred_languages =
        env.preferred_languages ∧
      env.nextId ≤ (allocStrings env langs).2.nextId ∧
      (∀ p ∈ (allocStrings env langs).2.heap,
        p.1 < (allocStrings env langs).2.nextId) ∧
      (∀ i ∈ (allocStrings env langs).1,
        i < (allocStrings env langs).2.nextId) ∧
      (∀ i, i < env.nextId →
        (allocStrings env langs).2.lookup i = env.lookup i) ∧
      (allocStrings env langs).1.map (allocStrings env langs).2.lookup =
        langs.map (fun s => some (HeapVal.str s)) := by
  induction langs with
  | nil =>
    intro env hf
    refine ⟨rfl, rfl, rfl, le_refl _, hf, ?_, ?_, rfl⟩
    · intro i hi
      simp [allocStrings] at hi
    · intro i _
      rfl
  | cons s rest ih =>
    intro env hf
    have hf1 : ∀ p ∈ ((env.nextId, HeapVal.str s) :: env.heap),
        p.1 < env.nextId + 1 := by
      intro p hp
      rcases List.mem_cons.mp hp with h | h
      · rw [h]
        exact Nat.lt_succ_self _
      · exact Nat.lt_succ_of_lt (hf p h)
    obtain ⟨ho, hh, hsl, hle, hfr, hidb, hlp, hm⟩ :=
      ih ⟨env.options, env.host, env.preferred_languages,
        (env.nextId, HeapVal.str s) :: env.heap, env.nextId + 1⟩ hf1
    have hle0 : env.nextId ≤ env.nextId + 1 := Nat.le_succ _
    simp only [allocStrings, alloc]
    refine ⟨ho, hh, hsl, le_trans hle0 hle, hfr, ?_, ?_, ?_⟩
    · intro i hi
      rcases List.mem_cons.mp hi with h | h
      · rw [h]
        exact Nat.lt_of_lt_of_le (Nat.lt_succ_self _) hle
      · exact hidb i h
    · intro i hi
      rw [hlp i (Nat.lt_succ_of_lt hi)]
      simp [Env.lookup, heapFind_cons, Nat.ne_of_gt hi]
    · rw [List.map_cons]
      have hn : (allocStrings ⟨env.options, env.host, env.preferred_languages,
          (env.nextId, HeapVal.str s) :: env.heap, env.nextId + 1⟩
            rest).2.lookup env.nextId = some (HeapVal.str s) := by
        rw [hlp env.nextId (Nat.lt_succ_self _)]
        simp [Env.lookup, heapFind_cons]
      rw [hn, hm]
      rfl

/-! ## Claim theorems about the cached accessor -/

/-- C2: whenever the accessor returns, the cache slot of the resulting
environment holds exactly the returned id; a second call returns the very
same id and environment; with the slot set the accessor is a pure read that
consults neither the options nor the host; and if the slot was already set
the call changes nothing at all. -/
theorem c2_cache_idempotent (env : Env) (i : Nat) (env2 : Env)
    (h : preferredLanguages env = some (i, env2)) :
    env2.preferred_languages = some i ∧
    preferredLanguages env2 = some (i, env2) ∧
    (∀ (o : Options) (hl : Option (List SDL_Locale)),
      preferredLanguages ⟨o, hl, some i, env2.heap, env2.nextId⟩ =
        some (i, ⟨o, hl, some i, env2.heap, env2.nextId⟩)) ∧
    (∀ j : Nat, env.preferred_languages = some j → env2 = env ∧ i = j) := by
  have hslot2 : env2.preferred_languages = some i := by
    unfold preferredLanguages at h
    rcases hslot : env.preferred_languages with _ | existing
    · rw [hslot] at h
      rcases hres : (get_preferred_languages env.options env.host).result
        with _ | langs
      · rw [hres] at h
        exact absurd h (by simp)
      · rw [hres] at h
        simp at h
        obtain ⟨hi, henv⟩ := h
        rw [← henv, hi]
    · rw [hslot] at h
      simp at h
      obtain ⟨hi, henv⟩ := h
      rw [← henv, hslot, hi]
  refine ⟨hslot2, preferredLanguages_of_slot env2 i hslot2,
    fun o hl => preferredLanguages_of_slot _ i rfl, ?_⟩
  intro j hj
  rw [preferredLanguages_of_slot env j hj] at h
  simp at h
  exact ⟨h.2.symm, h.1.symm⟩

theorem c2_cache_idempotent_witness :
    preferredLanguages
        ⟨⟨some ["fr"]⟩, none, some 1,
          [(1, HeapVal.arr [0]), (0, HeapVal.str "fr")], 2⟩ =
      some (1, ⟨⟨some ["fr"]⟩, none, some 1,
        [(1, HeapVal.arr [0]), (0, HeapVal.str "fr")], 2⟩) :=
  (c2_cache_idempotent (mkEnv ⟨some ["fr"]⟩ none) 1
    ⟨⟨some ["fr"]⟩, none, some 1,
      [(1, HeapVal.arr [0]), (0, HeapVal.str "fr")], 2⟩ (by decide)).2.1

/-- Explicit shape of a first accessor call: wrap the resolved tags as
strings, wrap their ids in an array, store its id in the slot. -/
theorem preferredLanguages_unfold (env : Env) (langs : List String)
    (hslot : env.preferred_languages = none)
    (hres : (get_preferred_languages env.options env.host).result =
      some langs) :
    preferredLanguages env =
      some ((allocStrings env langs).2.nextId,
        ⟨(allocStrings env langs).2.options, (allocStrings env langs).2.host,
          some (allocStrings env langs).2.nextId,
          ((allocStrings env langs).2.nextId,
            HeapVal.arr (allocStrings env langs).1) ::
            (allocStrings env langs).2.heap,
          (allocStrings env langs).2.nextId + 1⟩) := by
  unfold preferredLanguages
  simp only [hslot, hres, alloc]

/-- A first call on a fresh-slot environment returns an array object whose
elements dereference, in order, to exactly the resolved tags. -/
theorem preferredLanguages_fresh_wraps (env : Env) (langs : List String)
    (hslot : env.preferred_languages = none)
    (hfresh : ∀ p ∈ env.heap, p.1 < env.nextId)
    (hres : (get_preferred_languages env.options env.host).result =
      some langs) :
    ∃ (i : Nat) (env2 : Env) (ids : List Nat),
      preferredLanguages env = some (i, env2) ∧
      env2.lookup i = some (HeapVal.arr ids) ∧
      ids.map env2.lookup = langs.map (fun s => some (HeapVal.str s)) := by
  obtain ⟨ho, hh, hsl, hle, hfr, hidb, hlp, hm⟩ := allocStrings_ok langs env hfresh
  refine ⟨(allocStrings env langs).2.nextId,
    ⟨(allocStrings env langs).2.options, (allocStrings env langs).2.host,
      some (allocStrings env langs).2.nextId,
      ((allocStrings env langs).2.nextId,
        HeapVal.arr (allocStrings env langs).1) ::
        (allocStrings env langs).2.heap,
      (allocStrings env langs).2.nextId + 1⟩,
    (allocStrings env langs).1,
    preferredLanguages_unfold env langs hslot hres, ?_, ?_⟩
  · simp [Env.lookup, heapFind_cons]
  · have hlk : ∀ i ∈ (allocStrings env langs).1,
        Env.lookup ⟨(allocStrings env langs).2.options,
          (allocStrings env langs).2.host,
          some (allocStrings env langs).2.nextId,
          ((allocStrings env langs).2.nextId,
            HeapVal.arr (allocStrings env langs).1) ::
            (allocStrings env langs).2.heap,
          (allocStrings env langs).2.nextId + 1⟩ i =
        (allocStrings env langs).2.lookup i := by
      intro i hi
      simp [Env.lookup, heapFind_cons, Nat.ne_of_gt (hidb i hi)]
    rw [List.map_congr_left hlk]
    exact hm

/-- C10: with no override and a non-empty, fully decodable enumeration, the
resolver yields exactly the pre-terminator language components in enumeration
order (duplicates kept, nothing rewritten), and the first accessor call on a
fresh session wraps them, in that same order, as string objects inside the
returned array object. -/
theorem c10_order_and_multiplicity (options : Options)
    (locs : List SDL_Locale)
    (hov : options.preferred_languages = none)
    (hdec : ∀ l ∈ preSentinel locs, (l.language.bind id).isSome = true)
    (hne : langComponents locs ≠ []) :
    (get_preferred_languages options (some locs)).result =
      some (langComponents locs) ∧
    ∃ (i : Nat) (env2 : Env) (ids : List Nat),
      preferredLanguages (mkEnv options (some locs)) = some (i, env2) ∧
      env2.lookup i = some (HeapVal.arr ids) ∧
      ids.map env2.lookup =
        (langComponents locs).map (fun s => some (HeapVal.str s)) := by
  have hd := decodeLocales_all_decodable locs hdec
  have hres : (get_preferred_languages options (some locs)).result =
      some (langComponents locs) := by
    simp [get_preferred_languages, hostEnumerate, hov, hd, hne]
  exact ⟨hres, preferredLanguages_fresh_wraps (mkEnv options (some locs))
    (langComponents locs) rfl (by simp [mkEnv]) hres⟩

theorem c10_order_and_multiplicity_witness :
    (get_preferred_languages ⟨none⟩
        (some [⟨some (some "en"), some "US"⟩, ⟨some (some "en"), none⟩,
          ⟨none, none⟩])).result = some ["en", "en"] ∧
    ∃ (i : Nat) (env2 : Env) (ids : List Nat),
      preferredLanguages (mkEnv ⟨none⟩
          (some [⟨some (some "en"), some "US"⟩, ⟨some (some "en"), none⟩,
            ⟨none, none⟩])) = some (i, env2) ∧
      env2.lookup i = some (HeapVal.arr ids) ∧
      ids.map env2.lookup =
        (["en", "en"] : List String).map (fun s => some (HeapVal.str s)) := by
  have h := c10_order_and_multiplicity ⟨none⟩
    [⟨some (some "en"), some "US"⟩, ⟨some (some "en"), none⟩, ⟨none, none⟩]
    rfl (by decide) (by decide)
  exact ⟨h.1, h.2⟩

end NSLocale
